import Mathlib

/-!
The in-memory session store of oidc-session-memory.

A shallow embedding of `memory/memory.go` and of the two standard-library
functions it leans on (`path.Join`, `path.Clean`).

Conventions of the embedding

* A Go `string` is a byte sequence.  It is represented by a `String`, each
  byte `b` standing as the character with code `b`; `path.Clean` inspects
  nothing but the two bytes `'/'` and `'.'`.
* `int64` and `int` values are integers of `Int`; the places where Go
  arithmetic wraps are reduced with `toInt64`.
* A call that panics in Go (a method call on the nil `c.log`) returns `none`.
* The mutex is not represented: every operation below is one critical
  section, taken as an atomic step.
-/

set_option autoImplicit false

/-! ## Machine integers -/

/-- Two's-complement reduction of an integer to the `int64` range. -/
def toInt64 (n : Int) : Int :=
  (n + 2 ^ 63) % 2 ^ 64 - 2 ^ 63

/-- The integer is representable as an `int64`. -/
def isInt64 (n : Int) : Prop :=
  -(2 ^ 63) ≤ n ∧ n < 2 ^ 63

instance (n : Int) : Decidable (isInt64 n) := by
  unfold isInt64; infer_instance

/-- `time.Minute`, a `time.Duration` in nanoseconds. -/
def Minute : Int := 60 * 1000000000

/-! ## `path.Clean` and `path.Join` (Go standard library) -/

namespace path

/-- The backtracking of a `..` element in `Clean`:
`out.w--; for out.w > dotdot && out.index(out.w) != '/' { out.w-- }`.
The buffer is passed with its last written byte first; the byte read by
`out.index(out.w)` after a decrement is the byte just dropped. -/
def backtrack (dotdot : Nat) : List Char → List Char
  | [] => []
  | c :: out => if out.length > dotdot ∧ c ≠ '/' then backtrack dotdot out else out

/-- The `for r < n` loop of `Clean`.  The second argument is `path[r:]`, the
input still to be read; `out` is the output buffer `out.buf[:out.w]` with its
last written byte first, so `out.w` is `out.length`.  `copying = true` is the
inner loop `for ; r < n && path[r] != '/'; r++` that copies a real element. -/
def cleanLoop (rooted : Bool) : Bool → List Char → List Char → Nat → List Char
  | _, [], out, _ => out
  | true, c :: rest, out, dotdot =>
    if c = '/' then
      -- the copy stops at the slash; the next iteration skips it (`r++`)
      cleanLoop rooted false rest out dotdot
    else
      -- out.append(path[r])
      cleanLoop rooted true rest (c :: out) dotdot
  | false, c :: rest, out, dotdot =>
    if c = '/' then
      -- empty path element
      cleanLoop rooted false rest out dotdot
    else if c = '.' ∧ (rest = [] ∨ rest.head? = some '/') then
      -- . element
      cleanLoop rooted false rest out dotdot
    else
      match rest with
      | d :: rest2 =>
        if c = '.' ∧ d = '.' ∧ (rest2 = [] ∨ rest2.head? = some '/') then
          -- .. element: remove to last /
          if out.length > dotdot then
            -- can backtrack
            cleanLoop rooted false rest2 (backtrack dotdot out) dotdot
          else if !rooted then
            -- cannot backtrack, but not rooted, so append .. element
            let out1 := if out.length > 0 then '/' :: out else out
            cleanLoop rooted false rest2 ('.' :: '.' :: out1) (out1.length + 2)
          else
            cleanLoop rooted false rest2 out dotdot
        else
          -- real path element: add slash if needed, then copy the element
          let out1 :=
            if (rooted ∧ out.length ≠ 1) ∨ (¬ rooted ∧ out.length ≠ 0) then '/' :: out else out
          cleanLoop rooted true (d :: rest2) (c :: out1) dotdot
      | [] =>
        let out1 :=
          if (rooted ∧ out.length ≠ 1) ∨ (¬ rooted ∧ out.length ≠ 0) then '/' :: out else out
        cleanLoop rooted true [] (c :: out1) dotdot

/-- Go's `path.Clean`: the shortest path name equivalent to `path` by purely
lexical processing. -/
def Clean (path : String) : String :=
  if path = "" then "."
  else
    let rooted : Bool := path.data.head? = some '/'
    let out : List Char :=
      if rooted then cleanLoop rooted false path.data.tail ['/'] 1
      else cleanLoop rooted false path.data [] 0
    -- Turn empty string into "."
    if out.length = 0 then "." else String.mk out.reverse

/-- The buffer that `Join` builds: the elements separated by slashes, the
empty elements before the first non-empty one left out. -/
def joinBuf : List Char → List String → List Char
  | buf, [] => buf
  | buf, e :: elem =>
    if buf.length > 0 ∨ e ≠ "" then
      joinBuf ((if buf.length > 0 then buf ++ ['/'] else buf) ++ e.data) elem
    else joinBuf buf elem

/-- Go's `path.Join`: joins the elements with slashes and cleans the result;
all-empty input gives the empty string. -/
def Join (elem : List String) : String :=
  if (elem.map String.length).sum = 0 then ""
  else Clean (String.mk (joinBuf [] elem))

end path

/-! ## The data model of `memory.go` -/

/-- The Go struct `item`: a stored value and its expiry instant (`int64`
nanoseconds since the Unix epoch). -/
structure item where
  Value : String
  Expires : Int
  deriving DecidableEq, Repr

def newItem (value : String) (expiredTime : Int) : item :=
  { Value := value, Expires := expiredTime }

def item.Expired (i : item) (time : Int) : Bool :=
  if i.Expires = 0 then true
  else decide (time > i.Expires)

/-- Go's `error` interface value; `none` is `nil`. -/
abbrev error := Option String

/-- An `*os.File`: the process's standard output, or a file made by
`os.Create`. -/
inductive File where
  | Stdout
  | created (name : String)
  deriving DecidableEq, Repr

/-- A non-nil `io.Writer`, by dynamic type: an `*os.File` or anything else. -/
inductive GoWriter where
  | osFile (f : File)
  | other
  deriving DecidableEq, Repr

inductive LogFormatType where
  | FormatLong
  | FormatStandard
  | FormatShort
  deriving DecidableEq, Repr

inductive TimeFormatType where
  | FormatDate
  | FormatDatetime
  | FormatMillisec
  deriving DecidableEq, Repr

/-- The arguments `logger.New` was called with.  `level` is the string given
to `logger.Convert`. -/
structure ILogger where
  writer : Option GoWriter
  level : String
  format : LogFormatType
  dateFormat : TimeFormatType
  deriving DecidableEq, Repr

/-- The Go map `map[string]*item`: finitely many entries, one per key. -/
abbrev Items := AList (fun _ : String => item)

/-- The Go struct `memorySession` (without its mutex).  `pfx` is the field
`prefix`; a nil `writer` or `log` is `none`. -/
structure memorySession where
  items : Items
  pfx : String
  ttl : Int
  writer : Option GoWriter
  log : Option ILogger
  deriving DecidableEq

/-- What a call of `Get`, `Put` or `Delete` that did not panic leaves behind:
the store after the call, the message it handed to `c.log.Debug`, and the
returned values. -/
structure Outcome (α : Type) where
  session : memorySession
  debug : String
  ret : α

/-- `Get`: look the joined key up; a miss gives the empty string.  The
`context.Context` argument is unused by every method and is not represented. -/
def memorySession.Get (c : memorySession) (originalKey : String) :
    Option (Outcome (String × error)) :=
  let key := path.Join [c.pfx, originalKey]
  let s : String :=
    match c.items.lookup key with
    | some v => v.Value
    | none => ""
  match c.log with
  | none => none
  | some _ => some { session := c, debug := "[GET] " ++ key ++ ":" ++ s, ret := (s, none) }

/-- `Put` at clock reading `now` (`time.Now()` as `int64` Unix nanoseconds):
`time.Duration(c.ttl) * time.Minute` is an `int64` product, and the sum with
`now` is read back by `UnixNano()` as an `int64`. -/
def memorySession.Put (c : memorySession) (now : Int) (originalKey : String) (value : String) :
    Option (Outcome error) :=
  let expiredTime := toInt64 (now + toInt64 (c.ttl * Minute))
  let key := path.Join [c.pfx, originalKey]
  let c1 := { c with items := c.items.insert key (newItem value expiredTime) }
  match c.log with
  | none => none
  | some _ => some { session := c1, debug := "[PUT] " ++ key ++ ":" ++ value, ret := none }

/-- `Delete`: the log call comes first, then `delete(c.items, key)`. -/
def memorySession.Delete (c : memorySession) (key : String) : Option (Outcome error) :=
  let key := path.Join [c.pfx, key]
  match c.log with
  | none => none
  | some _ => some { session := { c with items := c.items.erase key },
                     debug := "[DEL] " ++ key, ret := none }

/-- `Close`: returns the file on which `file.Close()` is called, if any, and
the `nil` error. -/
def memorySession.Close (c : memorySession) : Option File × error :=
  match c.writer with
  | some (GoWriter.osFile file) => (some file, none)
  | _ => (none, none)

/-- A value of the empty interface `interface{}`: a Go string, or a value of
any other dynamic type. -/
inductive Value where
  | str (s : String)
  | other
  deriving DecidableEq, Repr

/-- The settings map `map[string]interface{}`. -/
abbrev Setting := AList (fun _ : String => Value)

/-- The comma-ok type assertion `setting[name].(string)`. -/
def Setting.string (setting : Setting) (name : String) : Option String :=
  match setting.lookup name with
  | some (Value.str s) => some s
  | _ => none

/-- What `Init` takes from outside this repository: whether `os.Create`
succeeds on a file name, `strings.ToLower`, and `logger.Info.String()`. -/
structure Host where
  osCreate : String → Bool
  ToLower : String → String
  infoName : String

def memorySession.Init (host : Host) (c : memorySession) (setting : Setting) :
    memorySession × error :=
  let pfx := match setting.string "prefix" with
    | some p => p
    | none => c.pfx
  let filename := match setting.string "filename" with
    | some f => f
    | none => ""
  let writer : GoWriter :=
    if filename ≠ "" then
      if host.osCreate filename then GoWriter.osFile (File.created filename)
      else GoWriter.osFile File.Stdout
    else GoWriter.osFile File.Stdout
  let logLevel := match setting.string "loglevel" with
    | some l => l
    | none => host.infoName
  let logFormat := match setting.string "logformat" with
    | some format =>
      let f := host.ToLower format
      if f = "long" then LogFormatType.FormatLong
      else if f = "std" ∨ f = "standard" then LogFormatType.FormatStandard
      else if f = "short" then LogFormatType.FormatShort
      else LogFormatType.FormatLong
    | none => LogFormatType.FormatLong
  let logDateFormat := match setting.string "logdateformat" with
    | some dateFormat =>
      let f := host.ToLower dateFormat
      if f = "date" then TimeFormatType.FormatDate
      else if f = "datetime" then TimeFormatType.FormatDatetime
      else if f = "time" then TimeFormatType.FormatMillisec
      else TimeFormatType.FormatDatetime
    | none => TimeFormatType.FormatDatetime
  ({ c with
      pfx := pfx
      writer := some writer
      log := some { writer := some writer, level := logLevel, format := logFormat,
                    dateFormat := logDateFormat } },
   none)

/-- The store that `newMemorySession` builds, before any tick of its
sweeping goroutine. -/
def newMemorySession : memorySession :=
  { items := ∅, pfx := "memory", ttl := 0, writer := none, log := none }

def New : memorySession :=
  newMemorySession

/-- One tick of the goroutine of `newMemorySession`: the body of
`for k, v := range c.items`, run over the entries in the order `visit` in
which `range` yields them.  `clock k` is the reading of
`time.Now().UnixNano()` taken when entry `k` is examined. -/
def memorySession.sweep (c : memorySession) (visit : List (Σ _ : String, item))
    (clock : String → Int) : memorySession :=
  { c with
    items := visit.foldl
      (fun items e => if e.2.Expired (clock e.1) then items.erase e.1 else items) c.items }

/-- The stores built by `New` and `Init` on which no `Put` has been performed:
further calls of `Init`, `Get` and `Delete` and any number of sweeps may
have run. -/
inductive PutFree : memorySession → Prop where
  | init (host : Host) (setting : Setting) : PutFree (New.Init host setting).1
  | reinit {c : memorySession} (host : Host) (setting : Setting) :
      PutFree c → PutFree (c.Init host setting).1
  | get {c : memorySession} (k : String) (g : Outcome (String × error)) :
      PutFree c → c.Get k = some g → PutFree g.session
  | delete {c : memorySession} (k : String) (d : Outcome error) :
      PutFree c → c.Delete k = some d → PutFree d.session
  | sweep {c : memorySession} (visit : List (Σ _ : String, item)) (clock : String → Int) :
      PutFree c → PutFree (c.sweep visit clock)

/-- The stores that can be reached from `New` by calls of `Init`, `Get`,
`Put`, `Delete` and by sweeps, in any number and order. -/
inductive Reach : memorySession → Prop where
  | new : Reach New
  | init {c : memorySession} (host : Host) (setting : Setting) :
      Reach c → Reach (c.Init host setting).1
  | get {c : memorySession} (k : String) (g : Outcome (String × error)) :
      Reach c → c.Get k = some g → Reach g.session
  | put {c : memorySession} (now : Int) (k v : String) (p : Outcome error) :
      Reach c → c.Put now k v = some p → Reach p.session
  | delete {c : memorySession} (k : String) (d : Outcome error) :
      Reach c → c.Delete k = some d → Reach d.session
  | sweep {c : memorySession} (visit : List (Σ _ : String, item)) (clock : String → Int) :
      Reach c → Reach (c.sweep visit clock)

/-- A single path element that `path.Clean` copies as it is: not empty, free
of slashes, and neither `.` nor `..`. -/
def path.plain (e : List Char) : Prop :=
  e ≠ [] ∧ '/' ∉ e ∧ e ≠ ['.'] ∧ e ≠ ['.', '.']

instance (e : List Char) : Decidable (path.plain e) := by
  unfold path.plain; infer_instance

/-- A store prefix made of one plain path element, with or without a leading
slash, such as the default `memory` and the `/memory` of the tests. -/
def path.plainRoot (p : String) : Prop :=
  path.plain p.data ∨ (p.data.head? = some '/' ∧ path.plain p.data.tail)

instance (p : String) : Decidable (path.plainRoot p) := by
  unfold path.plainRoot; infer_instance

/-! ## Concrete stores used to exercise the theorems -/

/-- A host on which every file can be created.  Its `ToLower` folds ASCII
letters only, which agrees with `strings.ToLower` on ASCII input. -/
def hostOk : Host :=
  { osCreate := fun _ => true, ToLower := String.toLower, infoName := "INFO" }

/-- The settings of `TestOutputOfStdout`. -/
def settingStdout : Setting :=
  AList.insert "prefix" (Value.str "/memory") (AList.insert "filename" (Value.str "")
    (AList.insert "loglevel" (Value.str "debug") ∅))

/-- The store of `TestOutputOfStdout` after `Init`: empty, prefix `/memory`. -/
def storeInit : memorySession :=
  (New.Init hostOk settingStdout).1

/-- An initialised store holding two entries, one of them under the joined
key of `a/../key`, stamped with the sentinel expiry `0`. -/
def storeTwo : memorySession :=
  { storeInit with
    items := AList.insert "/memory/key" (newItem "old" 0)
      (AList.insert "/memory/other" (newItem "kept" 900) ∅) }

/-- The store of `TestOutputOfStdout` after `Put("key", "old")` at the
instant 5: it holds one entry, under `/memory/key`. -/
def storeOld : memorySession :=
  match storeInit.Put 5 "key" "old" with
  | some p => p.session
  | none => storeInit

/-- The two entries of `storeTwo` in the order opposite to the one they are
listed in. -/
def visitTwo : List (Σ _ : String, item) :=
  [⟨"/memory/other", newItem "kept" 900⟩, ⟨"/memory/key", newItem "old" 0⟩]

/-- The store after `Init` with empty settings: the built-in prefix `memory`
and standard output as the sink. -/
def storeDefault : memorySession :=
  (New.Init hostOk ∅).1

/-- A host on which no file can be created; `ToLower` as in `hostOk`. -/
def hostFail : Host :=
  { osCreate := fun _ => false, ToLower := String.toLower, infoName := "INFO" }

/-- The settings of `TestOutputOfLogFile`. -/
def settingLogFile : Setting :=
  AList.insert "prefix" (Value.str "/memory") (AList.insert "filename" (Value.str "./test.log")
    (AList.insert "loglevel" (Value.str "debug") (AList.insert "logformat" (Value.str "short")
      (AList.insert "logdateformat" (Value.str "date") ∅))))

/-- Settings whose `prefix` and `filename` are not strings. -/
def settingWrongTypes : Setting :=
  AList.insert "prefix" Value.other (AList.insert "filename" Value.other ∅)

/-- The store of `TestOutputOfLogFile` after `Init`: the sink is the file
`./test.log`. -/
def storeLogFile : memorySession :=
  (New.Init hostOk settingLogFile).1


/-! ## Lemmas on machine integers -/

theorem toInt64_of_isInt64 (n : Int) (h : isInt64 n) : toInt64 n = n := by
  unfold isInt64 at h
  unfold toInt64
  norm_num at h ⊢
  omega

theorem toInt64_add_toInt64 (a b : Int) : toInt64 (a + toInt64 b) = toInt64 (a + b) := by
  unfold toInt64
  norm_num
  omega

/-! ## Lemmas on the expiry predicate -/

theorem expired_iff_aux (i : item) (now : Int) :
    i.Expired now = true ↔ (i.Expires = 0 ∨ i.Expires < now) := by
  unfold item.Expired
  by_cases h : i.Expires = 0
  · simp [h]
  · simp [h]

/-! ## The operations on an initialised store -/

theorem memorySession.Put_of_log (c : memorySession) (l : ILogger) (hl : c.log = some l)
    (now : Int) (k v : String) :
    c.Put now k v = some
      { session :=
          { c with
            items := AList.insert (path.Join [c.pfx, k])
              (newItem v (toInt64 (now + toInt64 (c.ttl * Minute)))) c.items },
        debug := "[PUT] " ++ path.Join [c.pfx, k] ++ ":" ++ v, ret := none } := by
  simp only [memorySession.Put, hl]

theorem memorySession.Get_of_miss (c : memorySession) (l : ILogger) (hl : c.log = some l)
    (k : String) (hmiss : c.items.lookup (path.Join [c.pfx, k]) = none) :
    c.Get k = some
      { session := c, debug := "[GET] " ++ path.Join [c.pfx, k] ++ ":" ++ "", ret := ("", none) } := by
  simp only [memorySession.Get, hl, hmiss]

theorem memorySession.Close_snd (c : memorySession) : c.Close.2 = none := by
  unfold memorySession.Close
  split <;> rfl

theorem memorySession.Close_fst (c : memorySession) (f : File) :
    c.Close.1 = some f ↔ c.writer = some (GoWriter.osFile f) := by
  unfold memorySession.Close
  split
  · rename_i file hw
    simp [hw]
  · rename_i hw
    constructor
    · intro h
      cases h
    · intro h
      exact absurd h (hw f)

/-- The sink that `Init` installs: the created file when `filename` is a
non-empty string whose creation succeeds, standard output otherwise. -/
theorem memorySession.Init_writer (host : Host) (c : memorySession) (setting : Setting) :
    (c.Init host setting).1.writer = some (GoWriter.osFile
      (match setting.string "filename" with
        | some name => if name ≠ "" ∧ host.osCreate name = true then File.created name
                       else File.Stdout
        | none => File.Stdout)) := by
  cases hname : setting.string "filename" with
  | none => simp [memorySession.Init, hname]
  | some name =>
    by_cases hne : name = ""
    · simp [memorySession.Init, hname, hne]
    · by_cases hok : host.osCreate name = true
      · simp [memorySession.Init, hname, hne, hok]
      · simp [memorySession.Init, hname, hne, hok]

theorem memorySession.Delete_of_log (c : memorySession) (l : ILogger) (hl : c.log = some l)
    (k : String) :
    c.Delete k = some
      { session := { c with items := c.items.erase (path.Join [c.pfx, k]) },
        debug := "[DEL] " ++ path.Join [c.pfx, k], ret := none } := by
  simp only [memorySession.Delete, hl]

/-- Two caller keys with one joined key name one entry: what `Put` writes
under the first, `Get` reads under the second. -/
theorem memorySession.Get_after_Put_alias (c : memorySession) (now : Int) (k1 k2 v : String)
    (hinit : c.log ≠ none) (halias : path.Join [c.pfx, k1] = path.Join [c.pfx, k2]) :
    ∃ p, c.Put now k1 v = some p ∧ ∃ g, p.session.Get k2 = some g ∧ g.ret = (v, none) := by
  obtain ⟨l, hl⟩ := Option.ne_none_iff_exists'.mp hinit
  refine ⟨_, memorySession.Put_of_log c l hl now k1 v, ?_⟩
  simp [memorySession.Get, hl, halias, newItem, AList.lookup_insert]

/-- Two caller keys with one joined key name one entry: what `Put` writes
under the first, `Delete` removes under the second. -/
theorem memorySession.Delete_after_Put_alias (c : memorySession) (now : Int) (k1 k2 v : String)
    (hinit : c.log ≠ none) (halias : path.Join [c.pfx, k1] = path.Join [c.pfx, k2]) :
    ∃ p, c.Put now k1 v = some p ∧ ∃ d, p.session.Delete k2 = some d ∧
      ∃ g, d.session.Get k1 = some g ∧ g.ret = ("", none) := by
  obtain ⟨l, hl⟩ := Option.ne_none_iff_exists'.mp hinit
  refine ⟨_, memorySession.Put_of_log c l hl now k1 v, ?_⟩
  simp [memorySession.Delete, memorySession.Get, hl, ← halias, AList.lookup_erase]

theorem memorySession.Get_of_hit (c : memorySession) (l : ILogger) (hl : c.log = some l)
    (k : String) (i : item) (hentry : c.items.lookup (path.Join [c.pfx, k]) = some i) :
    c.Get k = some
      { session := c, debug := "[GET] " ++ path.Join [c.pfx, k] ++ ":" ++ i.Value,
        ret := (i.Value, none) } := by
  simp only [memorySession.Get, hl, hentry]

/-! ## Lemmas on the map -/

theorem Items.erase_absent (m : Items) (k : String) (h : m.lookup k = none) :
    m.erase k = m := by
  apply AList.ext
  have hk : k ∉ m.entries.keys := by
    have := AList.lookup_eq_none.mp h
    simpa [AList.mem_keys, AList.keys] using this
  simpa [AList.erase] using List.kerase_of_not_mem_keys hk

theorem Items.erase_twice (m : Items) (k : String) :
    (m.erase k).erase k = m.erase k :=
  Items.erase_absent (m.erase k) k (AList.lookup_erase k m)

/-- The loop body of the sweep, folded over the visited entries: an entry is
found afterwards exactly if it was there before and none of the visited
entries under its key was expired at its reading of the clock. -/
theorem Items.lookup_foldl_sweep (clock : String → Int) (visit : List (Σ _ : String, item))
    (m : Items) (k : String) (i : item) :
    (visit.foldl (fun items e => if e.2.Expired (clock e.1) then items.erase e.1 else items)
        m).lookup k = some i ↔
      m.lookup k = some i ∧ ∀ e ∈ visit, e.1 = k → e.2.Expired (clock k) = false := by
  induction visit generalizing m with
  | nil => simp
  | cons e rest ih =>
    rw [List.foldl_cons, ih]
    simp only [List.mem_cons, forall_eq_or_imp]
    by_cases hk : e.1 = k
    · subst hk
      by_cases hx : e.2.Expired (clock e.1) = true
      · simp [hx, AList.lookup_erase]
      · simp [hx]
    · by_cases hx : e.2.Expired (clock e.1) = true
      · simp [hx, hk, AList.lookup_erase_ne (Ne.symm hk)]
      · simp [hx, hk]

/-- After a pass that visits exactly the entries of the map, the entry under a
key is the one from before the pass if that one is not expired at its reading
of the clock, and no entry otherwise. -/
theorem Items.lookup_sweep (c : memorySession) (visit : List (Σ _ : String, item))
    (clock : String → Int) (hvisit : visit.Perm c.items.entries) (k : String) (i : item) :
    (c.sweep visit clock).items.lookup k = some i ↔
      c.items.lookup k = some i ∧ i.Expired (clock k) = false := by
  have hmem : ∀ j : item, (⟨k, j⟩ : Σ _ : String, item) ∈ visit ↔ c.items.lookup k = some j := by
    intro j
    rw [hvisit.mem_iff]
    exact (AList.mem_lookup_iff).symm
  simp only [memorySession.sweep, Items.lookup_foldl_sweep]
  constructor
  · rintro ⟨h, hall⟩
    exact ⟨h, hall ⟨k, i⟩ ((hmem i).mpr h) rfl⟩
  · rintro ⟨h, hx⟩
    refine ⟨h, ?_⟩
    rintro ⟨k1, j⟩ hj hk1
    simp only at hk1
    subst hk1
    have hji := (hmem j).mp hj
    rw [h] at hji
    cases hji
    exact hx

/-- A sweep of the empty map leaves it empty, whatever it is told to visit. -/
theorem Items.foldl_sweep_empty (clock : String → Int) (visit : List (Σ _ : String, item)) :
    visit.foldl (fun items e => if e.2.Expired (clock e.1) then items.erase e.1 else items)
      (∅ : Items) = ∅ := by
  induction visit with
  | nil => rfl
  | cons e rest ih =>
    rw [List.foldl_cons]
    have hstep : (if e.2.Expired (clock e.1) then (∅ : Items).erase e.1 else ∅) = (∅ : Items) := by
      split <;> rfl
    rw [hstep]
    exact ih

/-- A store on which no `Put` was performed is initialised and holds no entry. -/
theorem PutFree.empty_and_initialised {c : memorySession} (h : PutFree c) :
    c.items = ∅ ∧ c.log ≠ none := by
  induction h with
  | init host setting => simp [memorySession.Init, New, newMemorySession]
  | reinit host setting _ ih => simp [memorySession.Init, ih.1]
  | @get c0 k g _ hg ih =>
    obtain ⟨l, hl⟩ := Option.ne_none_iff_exists'.mp ih.2
    simp only [memorySession.Get, hl, Option.some.injEq] at hg
    subst hg
    exact ih
  | @delete c0 k d _ hd ih =>
    obtain ⟨l, hl⟩ := Option.ne_none_iff_exists'.mp ih.2
    simp only [memorySession.Delete, hl, Option.some.injEq] at hd
    subst hd
    refine ⟨?_, by simp⟩
    show c0.items.erase _ = ∅
    rw [ih.1]
    rfl
  | sweep visit clock _ ih =>
    refine ⟨?_, ih.2⟩
    show List.foldl _ _ visit = ∅
    rw [ih.1]
    exact Items.foldl_sweep_empty clock visit

/-- No operation and no sweep assigns `ttl`: it is `0` on every store reached
from `New`. -/
theorem Reach.ttl_zero {c : memorySession} (h : Reach c) : c.ttl = 0 := by
  induction h with
  | new => rfl
  | init host setting _ ih => exact ih
  | @get c0 k g _ hg ih =>
    cases hlog : c0.log with
    | none => simp [memorySession.Get, hlog] at hg
    | some l =>
      simp only [memorySession.Get, hlog, Option.some.injEq] at hg
      subst hg
      exact ih
  | @put c0 now k v p _ hp ih =>
    cases hlog : c0.log with
    | none => simp [memorySession.Put, hlog] at hp
    | some l =>
      simp only [memorySession.Put, hlog, Option.some.injEq] at hp
      subst hp
      exact ih
  | @delete c0 k d _ hd ih =>
    cases hlog : c0.log with
    | none => simp [memorySession.Delete, hlog] at hd
    | some l =>
      simp only [memorySession.Delete, hlog, Option.some.injEq] at hd
      subst hd
      exact ih
  | sweep visit clock _ ih => exact ih

/-- The store `storeOld` is reached from `New` by `Init` and one `Put`. -/
theorem storeOld_reach : Reach storeOld := by
  obtain ⟨l, hl⟩ := Option.ne_none_iff_exists'.mp (show storeInit.log ≠ none by decide)
  have hput := memorySession.Put_of_log storeInit l hl 5 "key" "old"
  have hreach := Reach.put 5 "key" "old" _ (Reach.init hostOk settingStdout Reach.new) hput
  unfold storeOld
  rw [hput]
  exact hreach

/-! ## Lemmas on `path.Clean` and `path.Join` -/

namespace path

theorem cleanLoop_copy (rooted : Bool) (l rest out : List Char) (dotdot : Nat)
    (h : '/' ∉ l) :
    cleanLoop rooted true (l ++ '/' :: rest) out dotdot =
      cleanLoop rooted false rest (l.reverse ++ out) dotdot := by
  induction l generalizing out with
  | nil => simp [cleanLoop]
  | cons c l ih =>
    have hc : c ≠ '/' := fun hc => h (by simp [hc])
    have hl : '/' ∉ l := fun hl => h (by simp [hl])
    simp [cleanLoop, hc, ih _ hl]

theorem cleanLoop_copy_end (rooted : Bool) (l out : List Char) (dotdot : Nat)
    (h : '/' ∉ l) :
    cleanLoop rooted true l out dotdot = l.reverse ++ out := by
  induction l generalizing out with
  | nil => simp [cleanLoop]
  | cons c l ih =>
    have hc : c ≠ '/' := fun hc => h (by simp [hc])
    have hl : '/' ∉ l := fun hl => h (by simp [hl])
    simp [cleanLoop, hc, ih _ hl]

theorem cleanLoop_plain (rooted : Bool) (c : Char) (t tl out : List Char) (dotdot : Nat)
    (hplain : plain (c :: t)) (htl : tl = [] ∨ tl.head? = some '/') :
    cleanLoop rooted false (c :: t ++ tl) out dotdot =
      cleanLoop rooted true (t ++ tl)
        (c :: (if (rooted ∧ out.length ≠ 1) ∨ (¬ rooted ∧ out.length ≠ 0) then '/' :: out
               else out)) dotdot := by
  obtain ⟨-, hslash, hdot, hdotdot⟩ := hplain
  have hc : c ≠ '/' := fun hc => hslash (by simp [hc])
  cases t with
  | nil =>
    have hcd : c ≠ '.' := fun h => hdot (by simp [h])
    cases tl with
    | nil => simp [cleanLoop, hc, hcd]
    | cons d rest2 => simp [cleanLoop, hc, hcd]
  | cons d t2 =>
    have hd : d ≠ '/' := fun h => hslash (by simp [h])
    cases t2 with
    | nil =>
      have hcd : ¬ (c = '.' ∧ d = '.') := fun h => hdotdot (by simp [h.1, h.2])
      rcases htl with htl | htl
      · subst htl
        simp [cleanLoop, hc, hd]
        intro h1 h2
        exact absurd ⟨h1, h2⟩ hcd
      · cases tl with
        | nil => simp at htl
        | cons x tl2 =>
          simp at htl
          subst htl
          simp [cleanLoop, hc, hd]
          intro h1 h2
          exact absurd ⟨h1, h2⟩ hcd
    | cons x t3 =>
      have hx : x ≠ '/' := fun h => hslash (by simp [h])
      simp [cleanLoop, hc, hd, hx]

theorem joinBuf_two (p k : String) (hp : p.data ≠ []) :
    joinBuf [] [p, k] = p.data ++ '/' :: k.data := by
  have hne : p ≠ "" := fun h => hp (by rw [h])
  have hlen : 0 < p.length := List.length_pos.mpr hp
  simp [joinBuf, hne, hlen]

/-- On a plain prefix and a plain key `Clean` changes nothing: the cleaned
form of `p/k` is `p/k`. -/
theorem Clean_plain (p k : List Char) (hp : plain p ∨ (p.head? = some '/' ∧ plain p.tail))
    (hk : plain k) :
    Clean (String.mk (p ++ '/' :: k)) = String.mk (p ++ '/' :: k) := by
  obtain ⟨hk0, hkslash, -, -⟩ := id hk
  obtain ⟨c2, t2, rfl⟩ := List.exists_cons_of_ne_nil hk0
  have hk2 : '/' ∉ t2 := fun h => hkslash (by simp [h])
  rcases hp with hp | ⟨hroot, hp⟩
  · obtain ⟨hp0, hpslash, -, -⟩ := id hp
    obtain ⟨c, t, rfl⟩ := List.exists_cons_of_ne_nil hp0
    have hc : c ≠ '/' := fun h => hpslash (by simp [h])
    have ht : '/' ∉ t := fun h => hpslash (by simp [h])
    have h1 := cleanLoop_plain false c t ('/' :: c2 :: t2) [] 0 hp (Or.inr rfl)
    have h2 := cleanLoop_copy false t (c2 :: t2) [c] 0 ht
    have h3 := cleanLoop_plain false c2 t2 [] (t.reverse ++ [c]) 0 hk (Or.inl rfl)
    have h4 := cleanLoop_copy_end false t2 (c2 :: '/' :: (t.reverse ++ [c])) 0 hk2
    simp only [List.cons_append, List.append_nil] at h1 h3
    have hne : String.mk (c :: (t ++ '/' :: c2 :: t2)) ≠ "" :=
      fun h => List.cons_ne_nil _ _ (congrArg String.data h)
    simp [Clean, hne, hc, h1, h2, h3, h4]
  · cases p with
    | nil => simp at hroot
    | cons r e =>
      simp only [List.head?_cons, Option.some.injEq] at hroot
      subst hroot
      simp only [List.tail_cons] at hp
      obtain ⟨hp0, hpslash, -, -⟩ := id hp
      obtain ⟨c, t, rfl⟩ := List.exists_cons_of_ne_nil hp0
      have ht : '/' ∉ t := fun h => hpslash (by simp [h])
      have h1 := cleanLoop_plain true c t ('/' :: c2 :: t2) ['/'] 1 hp (Or.inr rfl)
      have h2 := cleanLoop_copy true t (c2 :: t2) [c, '/'] 1 ht
      have h3 := cleanLoop_plain true c2 t2 [] (t.reverse ++ [c, '/']) 1 hk (Or.inl rfl)
      have h4 := cleanLoop_copy_end true t2 (c2 :: '/' :: (t.reverse ++ [c, '/'])) 1 hk2
      simp only [List.cons_append, List.append_nil] at h1 h3
      have hne : String.mk ('/' :: c :: (t ++ '/' :: c2 :: t2)) ≠ "" :=
        fun h => List.cons_ne_nil _ _ (congrArg String.data h)
      simp [Clean, hne, h1, h2, h3, h4]

/-- On a plain prefix and a plain key `Join` is the prefix, a slash and the
key. -/
theorem Join_plain (p k : String) (hp : plainRoot p) (hk : plain k.data) :
    Join [p, k] = p ++ "/" ++ k := by
  have hp0 : p.data ≠ [] := by
    rcases hp with hp | ⟨hroot, -⟩
    · exact hp.1
    · intro h
      rw [h] at hroot
      simp at hroot
  have hlen : 0 < p.length := List.length_pos.mpr hp0
  have hsum : ¬ (List.map String.length [p, k]).sum = 0 := by
    simp
    omega
  unfold Join
  rw [if_neg hsum, joinBuf_two p k hp0, Clean_plain p.data k.data hp hk]
  apply String.ext
  simp

/-- Two strings of the form `a/b` with slash-free `b` agree only if their
parts before the last slash agree. -/
theorem slash_split (a b c d : List Char) (hb : '/' ∉ b) (hd : '/' ∉ d)
    (h : a ++ '/' :: b = c ++ '/' :: d) : a = c := by
  rcases List.append_eq_append_iff.mp h with ⟨m, hc, hm⟩ | ⟨m, ha, hm⟩
  · cases m with
    | nil => simpa using hc.symm
    | cons x m =>
      simp only [List.cons_append, List.cons.injEq] at hm
      exact absurd (by rw [hm.2]; simp) hb
  · cases m with
    | nil => simpa using ha
    | cons x m =>
      simp only [List.cons_append, List.cons.injEq] at hm
      exact absurd (by rw [hm.2]; simp) hd

end path

/-! ## Round trips and misses -/

/-- C1. On every initialised store, `Put(k, v)` returns nil and a `Get(k)`
issued right after it returns exactly `(v, nil)`, whatever the prefix, the
items already present (an older entry under `k` included) and the bytes
of `k`. -/
theorem put_get_round_trip (c : memorySession) (now : Int) (k v : String)
    (hinit : c.log ≠ none) :
    ∃ p, c.Put now k v = some p ∧ p.ret = none ∧
      ∃ g, p.session.Get k = some g ∧ g.ret = (v, none) := by
  obtain ⟨l, hl⟩ := Option.ne_none_iff_exists'.mp hinit
  simp [memorySession.Put, memorySession.Get, hl, newItem, AList.lookup_insert]

theorem put_get_round_trip_witness :
    storeTwo.log ≠ none ∧
      ∃ p, storeTwo.Put 1700000000000000000 "a/../key" "new" = some p ∧ p.ret = none ∧
        ∃ g, p.session.Get "a/../key" = some g ∧ g.ret = ("new", none) :=
  ⟨by decide, put_get_round_trip storeTwo 1700000000000000000 "a/../key" "new" (by decide)⟩

/-- C2. On a store built by `New` and `Init` on which no `Put` has been
performed, `Get(k)` returns `("", nil)` for every key; and on any initialised
store `Get(k)` returns `("", nil)` whenever the map has no entry under the
joined key of `k`. -/
theorem get_miss_returns_empty :
    (∀ (c : memorySession) (k : String), PutFree c →
      ∃ g, c.Get k = some g ∧ g.ret = ("", none)) ∧
    (∀ (c : memorySession) (k : String), c.log ≠ none →
      c.items.lookup (path.Join [c.pfx, k]) = none →
      ∃ g, c.Get k = some g ∧ g.ret = ("", none)) := by
  have miss : ∀ (c : memorySession) (k : String), c.log ≠ none →
      c.items.lookup (path.Join [c.pfx, k]) = none →
      ∃ g, c.Get k = some g ∧ g.ret = ("", none) := by
    intro c k hinit hmiss
    obtain ⟨l, hl⟩ := Option.ne_none_iff_exists'.mp hinit
    exact ⟨_, memorySession.Get_of_miss c l hl k hmiss, rfl⟩
  refine ⟨?_, miss⟩
  intro c k hfree
  obtain ⟨hempty, hinit⟩ := hfree.empty_and_initialised
  refine miss c k hinit ?_
  rw [hempty]
  exact AList.lookup_empty _

theorem get_miss_returns_empty_witness :
    (PutFree (New.Init hostOk settingStdout).1 ∧
      ∃ g, (New.Init hostOk settingStdout).1.Get "key" = some g ∧ g.ret = ("", none)) ∧
    (storeTwo.log ≠ none ∧ storeTwo.items.lookup (path.Join [storeTwo.pfx, "absent"]) = none ∧
      ∃ g, storeTwo.Get "absent" = some g ∧ g.ret = ("", none)) :=
  ⟨⟨PutFree.init hostOk settingStdout,
      get_miss_returns_empty.1 _ "key" (PutFree.init hostOk settingStdout)⟩,
    by decide, by decide,
    get_miss_returns_empty.2 storeTwo "absent" (by decide) (by decide)⟩

/-- C3. On every initialised store, after `Delete(k)` a following `Get(k)`
returns `("", nil)`; in particular after `Put(k, v)` then `Delete(k)`. -/
theorem delete_then_get_empty (c : memorySession) (now : Int) (k v : String)
    (hinit : c.log ≠ none) :
    (∃ d, c.Delete k = some d ∧ d.ret = none ∧
      ∃ g, d.session.Get k = some g ∧ g.ret = ("", none)) ∧
    (∃ p, c.Put now k v = some p ∧ ∃ d, p.session.Delete k = some d ∧ d.ret = none ∧
      ∃ g, d.session.Get k = some g ∧ g.ret = ("", none)) := by
  obtain ⟨l, hl⟩ := Option.ne_none_iff_exists'.mp hinit
  simp [memorySession.Put, memorySession.Delete, memorySession.Get, hl, AList.lookup_erase]

theorem delete_then_get_empty_witness :
    storeTwo.log ≠ none ∧
    (∃ d, storeTwo.Delete "key" = some d ∧ d.ret = none ∧
      ∃ g, d.session.Get "key" = some g ∧ g.ret = ("", none)) ∧
    (∃ p, storeTwo.Put 7 "key" "test" = some p ∧ ∃ d, p.session.Delete "key" = some d ∧
      d.ret = none ∧ ∃ g, d.session.Get "key" = some g ∧ g.ret = ("", none)) :=
  ⟨by decide, delete_then_get_empty storeTwo 7 "key" "test" (by decide)⟩

/-- C4. On an initialised store with no entry under the joined key of `k`,
`Delete(k)` returns nil and leaves the whole store as it was: items (every
key, value and expiry), prefix and ttl. -/
theorem delete_miss_is_noop (c : memorySession) (k : String) (hinit : c.log ≠ none)
    (hmiss : c.items.lookup (path.Join [c.pfx, k]) = none) :
    ∃ d, c.Delete k = some d ∧ d.ret = none ∧ d.session = c := by
  obtain ⟨items, pfx, ttl, writer, log⟩ := c
  obtain ⟨l, hl⟩ := Option.ne_none_iff_exists'.mp hinit
  simp only at hl hmiss
  subst hl
  simp [memorySession.Delete, Items.erase_absent items _ hmiss]

theorem delete_miss_is_noop_witness :
    storeTwo.log ≠ none ∧ storeTwo.items.lookup (path.Join [storeTwo.pfx, "absent"]) = none ∧
      ∃ d, storeTwo.Delete "absent" = some d ∧ d.ret = none ∧ d.session = storeTwo :=
  ⟨by decide, by decide, delete_miss_is_noop storeTwo "absent" (by decide) (by decide)⟩

/-- C5. On every initialised store, `Delete(k)` twice leaves the same store
as `Delete(k)` once, and both calls return nil. -/
theorem delete_idempotent (c : memorySession) (k : String) (hinit : c.log ≠ none) :
    ∃ d1, c.Delete k = some d1 ∧ d1.ret = none ∧
      ∃ d2, d1.session.Delete k = some d2 ∧ d2.ret = none ∧ d2.session = d1.session := by
  obtain ⟨l, hl⟩ := Option.ne_none_iff_exists'.mp hinit
  simp [memorySession.Delete, hl, Items.erase_twice]

theorem delete_idempotent_witness :
    storeTwo.log ≠ none ∧
      ∃ d1, storeTwo.Delete "key" = some d1 ∧ d1.ret = none ∧
        ∃ d2, d1.session.Delete "key" = some d2 ∧ d2.ret = none ∧ d2.session = d1.session :=
  ⟨by decide, delete_idempotent storeTwo "key" (by decide)⟩

/-! ## Expiry stamping -/

/-- C6. On every initialised store that the code reaches from `New`, after
`Put(k, v)` at an `int64` instant `now` the entry under the joined key of `k`
is exactly `v` with the expiry `now + ttl` minutes in nanoseconds, whatever
was stored there before; `Put` returns nil. -/
theorem put_stamps_expiry (c : memorySession) (now : Int) (k v : String)
    (hreach : Reach c) (hinit : c.log ≠ none) (hnow : isInt64 now) :
    ∃ p, c.Put now k v = some p ∧ p.ret = none ∧
      p.session.items.lookup (path.Join [c.pfx, k]) =
        some { Value := v, Expires := now + c.ttl * Minute } := by
  obtain ⟨l, hl⟩ := Option.ne_none_iff_exists'.mp hinit
  refine ⟨_, memorySession.Put_of_log c l hl now k v, rfl, ?_⟩
  have hstamp : toInt64 (now + toInt64 (c.ttl * Minute)) = now + c.ttl * Minute := by
    rw [toInt64_add_toInt64, hreach.ttl_zero, Int.zero_mul, Int.add_zero]
    exact toInt64_of_isInt64 now hnow
  show (AList.insert _ _ c.items).lookup _ = _
  rw [AList.lookup_insert, hstamp]
  rfl

theorem put_stamps_expiry_witness :
    (Reach storeOld ∧ storeOld.log ≠ none ∧ isInt64 1700000000000000000 ∧
      storeOld.items.lookup (path.Join [storeOld.pfx, "key"]) = some (newItem "old" 5)) ∧
    ∃ p, storeOld.Put 1700000000000000000 "key" "new" = some p ∧ p.ret = none ∧
      p.session.items.lookup (path.Join [storeOld.pfx, "key"]) =
        some { Value := "new", Expires := 1700000000000000000 + storeOld.ttl * Minute } :=
  ⟨⟨storeOld_reach, by decide, by decide, by decide⟩,
    put_stamps_expiry storeOld 1700000000000000000 "key" "new" storeOld_reach (by decide)
      (by decide)⟩

/-- C7. `Get` reads no clock and applies no expiry test: on every initialised
store holding an entry under the joined key of `k`, `Get(k)` returns that
entry's value and nil whatever its expiry is, the sentinel `0` and instants
long past included, and leaves the store as it was. -/
theorem get_ignores_expiry (c : memorySession) (k : String) (i : item)
    (hinit : c.log ≠ none) (hentry : c.items.lookup (path.Join [c.pfx, k]) = some i) :
    ∃ g, c.Get k = some g ∧ g.ret = (i.Value, none) ∧ g.session = c := by
  obtain ⟨l, hl⟩ := Option.ne_none_iff_exists'.mp hinit
  simp [memorySession.Get, hl, hentry]

theorem get_ignores_expiry_witness :
    (storeTwo.log ≠ none ∧
      storeTwo.items.lookup (path.Join [storeTwo.pfx, "key"]) = some (newItem "old" 0) ∧
      (newItem "old" 0).Expired 1700000000000000000 = true) ∧
    ∃ g, storeTwo.Get "key" = some g ∧ g.ret = ((newItem "old" 0).Value, none) ∧
      g.session = storeTwo :=
  ⟨⟨by decide, by decide, by decide⟩,
    get_ignores_expiry storeTwo "key" (newItem "old" 0) (by decide) (by decide)⟩

/-! ## The expiry predicate and the sweep -/

/-- C8. `Expired(now)` is true exactly when the expiry is `0` or `now` is
strictly greater than the expiry, for all integers and so for all `int64`
instants. -/
theorem expired_iff (i : item) (now : Int) :
    i.Expired now = true ↔ (i.Expires = 0 ∨ now > i.Expires) := by
  unfold item.Expired
  by_cases h : i.Expires = 0
  · simp [h]
  · simp [h]

/-- C9. One pass of the sweep over the entries of the map, in any order and
with any clock readings: the entry found under a key afterwards is the entry
that was there before, and it is found exactly if it was not `Expired` at the
reading taken for it.  So nothing is added, survivors keep value and expiry,
and prefix, ttl, writer and logger are untouched. -/
theorem sweep_removes_exactly_expired (c : memorySession)
    (visit : List (Σ _ : String, item)) (clock : String → Int)
    (hvisit : visit.Perm c.items.entries) :
    (∀ (k : String) (i : item),
      (c.sweep visit clock).items.lookup k = some i ↔
        c.items.lookup k = some i ∧ i.Expired (clock k) = false) ∧
    (c.sweep visit clock).pfx = c.pfx ∧ (c.sweep visit clock).ttl = c.ttl ∧
    (c.sweep visit clock).writer = c.writer ∧ (c.sweep visit clock).log = c.log :=
  ⟨fun k i => Items.lookup_sweep c visit clock hvisit k i, rfl, rfl, rfl, rfl⟩

theorem sweep_removes_exactly_expired_witness :
    visitTwo.Perm storeTwo.items.entries ∧
    ((∀ (k : String) (i : item),
      (storeTwo.sweep visitTwo (fun _ => 900)).items.lookup k = some i ↔
        storeTwo.items.lookup k = some i ∧ i.Expired ((fun _ => 900) k) = false) ∧
    (storeTwo.sweep visitTwo (fun _ => 900)).pfx = storeTwo.pfx ∧
    (storeTwo.sweep visitTwo (fun _ => 900)).ttl = storeTwo.ttl ∧
    (storeTwo.sweep visitTwo (fun _ => 900)).writer = storeTwo.writer ∧
    (storeTwo.sweep visitTwo (fun _ => 900)).log = storeTwo.log) :=
  ⟨by decide, sweep_removes_exactly_expired storeTwo visitTwo (fun _ => 900) (by decide)⟩

/-- C10. On an initialised store with `ttl = 0`, `Put(k, v)` at an `int64`
instant `t` followed by one sweep that examines the entry at an instant `t2`
later than `t` leaves nothing under `k`: `Get(k)` returns `("", nil)`.  The
same holds for any entry whose expiry is `0` or lies before the instant at
which the sweep examines it. -/
theorem ttl_zero_entries_reaped :
    (∀ (c : memorySession) (t t2 : Int) (k v : String) (clock : String → Int),
      c.log ≠ none → c.ttl = 0 → isInt64 t → t < t2 → clock (path.Join [c.pfx, k]) = t2 →
      ∃ p, c.Put t k v = some p ∧
        ∀ visit : List (Σ _ : String, item), visit.Perm p.session.items.entries →
          ∃ g, (p.session.sweep visit clock).Get k = some g ∧ g.ret = ("", none)) ∧
    (∀ (c : memorySession) (k : String) (i : item) (visit : List (Σ _ : String, item))
      (clock : String → Int),
      c.log ≠ none → c.items.lookup (path.Join [c.pfx, k]) = some i →
      (i.Expires = 0 ∨ i.Expires < clock (path.Join [c.pfx, k])) →
      visit.Perm c.items.entries →
      ∃ g, (c.sweep visit clock).Get k = some g ∧ g.ret = ("", none)) := by
  have swept : ∀ (c : memorySession) (k : String) (i : item)
      (visit : List (Σ _ : String, item)) (clock : String → Int),
      c.log ≠ none → c.items.lookup (path.Join [c.pfx, k]) = some i →
      (i.Expires = 0 ∨ i.Expires < clock (path.Join [c.pfx, k])) →
      visit.Perm c.items.entries →
      ∃ g, (c.sweep visit clock).Get k = some g ∧ g.ret = ("", none) := by
    intro c k i visit clock hinit hentry hexp hvisit
    obtain ⟨l, hl⟩ := Option.ne_none_iff_exists'.mp hinit
    have hgone : (c.sweep visit clock).items.lookup (path.Join [c.pfx, k]) = none := by
      cases hlook : (c.sweep visit clock).items.lookup (path.Join [c.pfx, k]) with
      | none => rfl
      | some j =>
        obtain ⟨hj, hlive⟩ := (Items.lookup_sweep c visit clock hvisit _ j).mp hlook
        rw [hentry] at hj
        cases hj
        have hx : i.Expired (clock (path.Join [c.pfx, k])) = true :=
          (expired_iff_aux i _).mpr hexp
        rw [hx] at hlive
        cases hlive
    exact ⟨_, memorySession.Get_of_miss (c.sweep visit clock) l hl k hgone, rfl⟩
  refine ⟨?_, swept⟩
  intro c t t2 k v clock hinit httl ht hlt hclk
  obtain ⟨l, hl⟩ := Option.ne_none_iff_exists'.mp hinit
  refine ⟨_, memorySession.Put_of_log c l hl t k v, ?_⟩
  intro visit hvisit
  have hstamp : toInt64 (t + toInt64 (c.ttl * Minute)) = t := by
    rw [httl, Int.zero_mul, toInt64_add_toInt64, Int.add_zero, toInt64_of_isInt64 t ht]
  refine swept _ k (newItem v t) visit clock (by simpa using hinit) ?_ ?_ hvisit
  · simp [AList.lookup_insert, hstamp]
  · right
    show t < clock (path.Join [c.pfx, k])
    rw [hclk]
    exact hlt

theorem ttl_zero_entries_reaped_witness :
    ((storeInit.log ≠ none ∧ storeInit.ttl = 0 ∧ isInt64 1700000000000000000 ∧
        (1700000000000000000 : Int) < 1700000001000000000) ∧
      ∃ p, storeInit.Put 1700000000000000000 "key" "test" = some p ∧
        ∀ visit : List (Σ _ : String, item), visit.Perm p.session.items.entries →
          ∃ g, (p.session.sweep visit (fun _ => 1700000001000000000)).Get "key" = some g ∧
            g.ret = ("", none)) ∧
    ((storeTwo.log ≠ none ∧
        storeTwo.items.lookup (path.Join [storeTwo.pfx, "key"]) = some (newItem "old" 0) ∧
        visitTwo.Perm storeTwo.items.entries) ∧
      ∃ g, (storeTwo.sweep visitTwo (fun _ => 5)).Get "key" = some g ∧ g.ret = ("", none)) :=
  ⟨⟨⟨by decide, by decide, by decide, by decide⟩,
      ttl_zero_entries_reaped.1 storeInit 1700000000000000000 1700000001000000000 "key" "test"
        (fun _ => 1700000001000000000) (by decide) (by decide) (by decide) (by decide) rfl⟩,
    ⟨⟨by decide, by decide, by decide⟩,
      ttl_zero_entries_reaped.2 storeTwo "key" (newItem "old" 0) visitTwo (fun _ => 5)
        (by decide) (by decide) (Or.inl rfl) (by decide)⟩⟩

/-! ## Errors, the sink and the prefix -/

/-- C13, the claim as written fails: the store of `TestOutputOfStdout`, whose
`filename` is empty, has `os.Stdout` as its sink; `os.Stdout` is an `*os.File`,
the type assertion of `Close` succeeds on it, and `Close` calls `Close()` on
standard output. -/
theorem close_closes_stdout :
    storeInit.writer = some (GoWriter.osFile File.Stdout) ∧
      storeInit.Close = (some File.Stdout, none) :=
  ⟨by decide, by decide⟩

/-- C13, amended. `Close` always returns nil, and it calls `Close()` on the
sink exactly when the sink is an `*os.File`: after `Init` that is the created
file when `filename` is a non-empty string whose creation succeeds, and
standard output in every other case.  A nil or non-file writer is left
alone. -/
theorem close_closes_any_file (host : Host) (c : memorySession) (setting : Setting) :
    (c.Close.2 = none ∧ ∀ f : File, c.Close.1 = some f ↔ c.writer = some (GoWriter.osFile f)) ∧
    ((c.Init host setting).1.Close.2 = none ∧
      ∀ f : File, (c.Init host setting).1.Close.1 = some f ↔
        f = (match setting.string "filename" with
              | some name => if name ≠ "" ∧ host.osCreate name = true then File.created name
                             else File.Stdout
              | none => File.Stdout)) := by
  refine ⟨⟨c.Close_snd, c.Close_fst⟩, (c.Init host setting).1.Close_snd, ?_⟩
  intro f
  rw [memorySession.Close_fst, memorySession.Init_writer]
  constructor
  · intro h
    simpa using h.symm
  · intro h
    rw [h]

/-- C14. On every initialised store and for every key, value and instant,
`Get`, `Put` and `Delete` return with a nil error; `Close` returns nil on
every store, and `Init` returns nil for every host, store and settings map. -/
theorem no_operation_reports_error :
    (∀ (c : memorySession) (now : Int) (k v : String), c.log ≠ none →
      (∃ g, c.Get k = some g ∧ g.ret.2 = none) ∧
      (∃ p, c.Put now k v = some p ∧ p.ret = none) ∧
      (∃ d, c.Delete k = some d ∧ d.ret = none)) ∧
    (∀ c : memorySession, c.Close.2 = none) ∧
    (∀ (host : Host) (c : memorySession) (setting : Setting),
      (c.Init host setting).2 = none ∧ (c.Init host setting).1.log ≠ none) := by
  refine ⟨?_, ?_, ?_⟩
  · intro c now k v hinit
    obtain ⟨l, hl⟩ := Option.ne_none_iff_exists'.mp hinit
    simp [memorySession.Get, memorySession.Put, memorySession.Delete, hl]
  · intro c
    unfold memorySession.Close
    split <;> rfl
  · intro host c setting
    simp [memorySession.Init]

theorem no_operation_reports_error_witness :
    (storeTwo.log ≠ none ∧
      (∃ g, storeTwo.Get "absent" = some g ∧ g.ret.2 = none) ∧
      (∃ p, storeTwo.Put 7 "absent" "test" = some p ∧ p.ret = none) ∧
      (∃ d, storeTwo.Delete "absent" = some d ∧ d.ret = none)) ∧
    storeLogFile.Close.2 = none ∧
    ((New.Init hostFail settingWrongTypes).2 = none ∧
      (New.Init hostFail settingWrongTypes).1.log ≠ none) :=
  ⟨⟨by decide, no_operation_reports_error.1 storeTwo 7 "absent" "test" (by decide)⟩,
    no_operation_reports_error.2.1 storeLogFile,
    no_operation_reports_error.2.2 hostFail New settingWrongTypes⟩

/-- C15. After `Init` the sink is the newly created file exactly when
`filename` is a non-empty string and `os.Create` succeeds on it; when the
option is absent, is not a string, is empty, or the creation fails, the sink
is standard output.  The logger writes to the same sink. -/
theorem init_selects_sink (host : Host) (c : memorySession) (setting : Setting) :
    (∀ name : String,
      (c.Init host setting).1.writer = some (GoWriter.osFile (File.created name)) ↔
        setting.lookup "filename" = some (Value.str name) ∧ name ≠ "" ∧
          host.osCreate name = true) ∧
    (setting.lookup "filename" = none →
      (c.Init host setting).1.writer = some (GoWriter.osFile File.Stdout)) ∧
    (setting.lookup "filename" = some Value.other →
      (c.Init host setting).1.writer = some (GoWriter.osFile File.Stdout)) ∧
    (setting.lookup "filename" = some (Value.str "") →
      (c.Init host setting).1.writer = some (GoWriter.osFile File.Stdout)) ∧
    (∀ name : String, setting.lookup "filename" = some (Value.str name) →
      host.osCreate name = false →
      (c.Init host setting).1.writer = some (GoWriter.osFile File.Stdout)) ∧
    (∃ l, (c.Init host setting).1.log = some l ∧ l.writer = (c.Init host setting).1.writer) := by
  refine ⟨?_, ?_, ?_, ?_, ?_, ?_⟩
  · intro name
    rw [memorySession.Init_writer]
    cases hl : setting.lookup "filename" with
    | none => simp [Setting.string, hl]
    | some val =>
      cases val with
      | other => simp [Setting.string, hl]
      | str f =>
        simp only [Setting.string, hl]
        by_cases hc : f ≠ "" ∧ host.osCreate f = true
        · rw [if_pos hc]
          constructor
          · intro h
            simp only [Option.some.injEq, GoWriter.osFile.injEq, File.created.injEq] at h
            subst h
            exact ⟨rfl, hc⟩
          · rintro ⟨h, -⟩
            simp only [Option.some.injEq, Value.str.injEq] at h
            subst h
            rfl
        · rw [if_neg hc]
          constructor
          · intro h
            simp at h
          · rintro ⟨h, h2⟩
            simp only [Option.some.injEq, Value.str.injEq] at h
            subst h
            exact absurd h2 hc
  · intro hl
    rw [memorySession.Init_writer]
    simp [Setting.string, hl]
  · intro hl
    rw [memorySession.Init_writer]
    simp [Setting.string, hl]
  · intro hl
    rw [memorySession.Init_writer]
    simp [Setting.string, hl]
  · intro name hl hfail
    rw [memorySession.Init_writer]
    simp [Setting.string, hl, hfail]
  · exact ⟨_, rfl, rfl⟩

theorem init_selects_sink_witness :
    ((New.Init hostOk settingLogFile).1.writer =
        some (GoWriter.osFile (File.created "./test.log")) ↔
      settingLogFile.lookup "filename" = some (Value.str "./test.log") ∧ "./test.log" ≠ "" ∧
        hostOk.osCreate "./test.log" = true) ∧
    (settingWrongTypes.lookup "filename" = some Value.other ∧
      (New.Init hostOk settingWrongTypes).1.writer = some (GoWriter.osFile File.Stdout)) ∧
    (settingStdout.lookup "filename" = some (Value.str "") ∧
      (New.Init hostOk settingStdout).1.writer = some (GoWriter.osFile File.Stdout)) ∧
    ((settingLogFile.lookup "filename" = some (Value.str "./test.log") ∧
        hostFail.osCreate "./test.log" = false) ∧
      (New.Init hostFail settingLogFile).1.writer = some (GoWriter.osFile File.Stdout)) :=
  ⟨(init_selects_sink hostOk New settingLogFile).1 "./test.log",
    ⟨by decide, (init_selects_sink hostOk New settingWrongTypes).2.2.1 (by decide)⟩,
    ⟨by decide, (init_selects_sink hostOk New settingStdout).2.2.2.1 (by decide)⟩,
    ⟨⟨by decide, rfl⟩,
      (init_selects_sink hostFail New settingLogFile).2.2.2.2.1 "./test.log" (by decide) rfl⟩⟩

/-- C16. On a store returned by `New`, `Init` leaves the prefix at the
built-in `memory` when `prefix` is absent from the settings or is not a
string, and sets it to `s` when `prefix` is the string `s`, the empty string
included. -/
theorem init_prefix_default (host : Host) (setting : Setting) :
    (setting.lookup "prefix" = none → (New.Init host setting).1.pfx = "memory") ∧
    (setting.lookup "prefix" = some Value.other → (New.Init host setting).1.pfx = "memory") ∧
    (∀ s : String, setting.lookup "prefix" = some (Value.str s) →
      (New.Init host setting).1.pfx = s) := by
  refine ⟨?_, ?_, ?_⟩
  · intro hl
    simp [memorySession.Init, Setting.string, hl, New, newMemorySession]
  · intro hl
    simp [memorySession.Init, Setting.string, hl, New, newMemorySession]
  · intro s hl
    simp [memorySession.Init, Setting.string, hl]

theorem init_prefix_default_witness :
    (((∅ : Setting).lookup "prefix" = none ∧ (New.Init hostOk ∅).1.pfx = "memory") ∧
      (settingWrongTypes.lookup "prefix" = some Value.other ∧
        (New.Init hostOk settingWrongTypes).1.pfx = "memory")) ∧
    ((settingStdout.lookup "prefix" = some (Value.str "/memory") ∧
        (New.Init hostOk settingStdout).1.pfx = "/memory") ∧
      ((AList.insert "prefix" (Value.str "") (∅ : Setting)).lookup "prefix" =
          some (Value.str "") ∧
        (New.Init hostOk (AList.insert "prefix" (Value.str "") ∅)).1.pfx = "")) :=
  ⟨⟨⟨by decide, (init_prefix_default hostOk ∅).1 (by decide)⟩,
      ⟨by decide, (init_prefix_default hostOk settingWrongTypes).2.1 (by decide)⟩⟩,
    ⟨⟨by decide, (init_prefix_default hostOk settingStdout).2.2 "/memory" (by decide)⟩,
      ⟨by decide,
        (init_prefix_default hostOk (AList.insert "prefix" (Value.str "") ∅)).2.2 ""
          (by decide)⟩⟩⟩

/-! ## Equality of instant and expiry, frames, aliasing -/

/-- C17, the claim as written fails: an entry whose expiry is the sentinel `0`
is expired at the instant `0`, which equals its expiry. -/
theorem expired_at_equality_for_sentinel :
    (0 : Int) = (newItem "old" 0).Expires ∧ (newItem "old" 0).Expired 0 = true :=
  ⟨rfl, by decide⟩

/-- C17, amended. An entry whose expiry is not the sentinel `0` is not expired
at the instant equal to its expiry, so a sweep that examines it at that exact
instant keeps it, with its value and expiry. -/
theorem not_expired_at_equality (i : item) (now : Int) (hset : i.Expires ≠ 0)
    (heq : now = i.Expires) :
    i.Expired now = false ∧
    ∀ (c : memorySession) (k : String) (visit : List (Σ _ : String, item))
      (clock : String → Int),
      c.items.lookup k = some i → visit.Perm c.items.entries → clock k = now →
      (c.sweep visit clock).items.lookup k = some i := by
  have hlive : i.Expired now = false := by
    unfold item.Expired
    simp [hset, heq]
  refine ⟨hlive, ?_⟩
  intro c k visit clock hentry hvisit hclk
  refine (Items.lookup_sweep c visit clock hvisit k i).mpr ⟨hentry, ?_⟩
  rw [hclk]
  exact hlive

theorem not_expired_at_equality_witness :
    ((newItem "kept" 900).Expires ≠ 0 ∧ (900 : Int) = (newItem "kept" 900).Expires) ∧
    (newItem "kept" 900).Expired 900 = false ∧
    ((storeTwo.items.lookup "/memory/other" = some (newItem "kept" 900) ∧
        visitTwo.Perm storeTwo.items.entries) ∧
      (storeTwo.sweep visitTwo (fun _ => 900)).items.lookup "/memory/other" =
        some (newItem "kept" 900)) :=
  ⟨⟨by decide, rfl⟩,
    (not_expired_at_equality (newItem "kept" 900) 900 (by decide) rfl).1,
    ⟨by decide, by decide⟩,
    (not_expired_at_equality (newItem "kept" 900) 900 (by decide) rfl).2 storeTwo
      "/memory/other" visitTwo (fun _ => 900) (by decide) (by decide) rfl⟩

/-- C19. On every initialised store and for keys `k`, `k2` whose joined keys
differ, `Put(k, v)` and `Delete(k)` leave the entry under `k2` as it was
(present or not, value and expiry) and leave prefix and ttl alone; `Get(k)`
leaves the whole store unchanged. -/
theorem operations_frame (c : memorySession) (now : Int) (k k2 v : String)
    (hinit : c.log ≠ none) (hdiff : path.Join [c.pfx, k] ≠ path.Join [c.pfx, k2]) :
    (∃ p, c.Put now k v = some p ∧
      p.session.items.lookup (path.Join [c.pfx, k2]) = c.items.lookup (path.Join [c.pfx, k2]) ∧
      p.session.pfx = c.pfx ∧ p.session.ttl = c.ttl) ∧
    (∃ d, c.Delete k = some d ∧
      d.session.items.lookup (path.Join [c.pfx, k2]) = c.items.lookup (path.Join [c.pfx, k2]) ∧
      d.session.pfx = c.pfx ∧ d.session.ttl = c.ttl) ∧
    (∃ g, c.Get k = some g ∧ g.session = c) := by
  obtain ⟨l, hl⟩ := Option.ne_none_iff_exists'.mp hinit
  refine ⟨⟨_, memorySession.Put_of_log c l hl now k v, ?_, rfl, rfl⟩,
    ⟨_, memorySession.Delete_of_log c l hl k, ?_, rfl, rfl⟩, ?_⟩
  · exact AList.lookup_insert_ne (Ne.symm hdiff)
  · exact AList.lookup_erase_ne (Ne.symm hdiff)
  · simp [memorySession.Get, hl]

theorem operations_frame_witness :
    (storeTwo.log ≠ none ∧
      path.Join [storeTwo.pfx, "key"] ≠ path.Join [storeTwo.pfx, "other"]) ∧
    (∃ p, storeTwo.Put 7 "key" "new" = some p ∧
      p.session.items.lookup (path.Join [storeTwo.pfx, "other"]) =
        storeTwo.items.lookup (path.Join [storeTwo.pfx, "other"]) ∧
      p.session.pfx = storeTwo.pfx ∧ p.session.ttl = storeTwo.ttl) ∧
    (∃ d, storeTwo.Delete "key" = some d ∧
      d.session.items.lookup (path.Join [storeTwo.pfx, "other"]) =
        storeTwo.items.lookup (path.Join [storeTwo.pfx, "other"]) ∧
      d.session.pfx = storeTwo.pfx ∧ d.session.ttl = storeTwo.ttl) ∧
    (∃ g, storeTwo.Get "key" = some g ∧ g.session = storeTwo) :=
  ⟨⟨by decide, by decide⟩, operations_frame storeTwo 7 "key" "other" "new" (by decide) (by decide)⟩

/-- C20. The map key is `path.Join(prefix, key)`, so distinct caller keys can
name one entry: under the prefix `/memory`, `Put("a", v)` is read back by
`Get("./a")` and by `Get("b/../a")`, and `Delete("./a")` removes the entry put
under `a`; and the joined key of `../x` is `/x`, which does not start with the
prefix. -/
theorem caller_keys_alias :
    storeInit.log ≠ none ∧ storeInit.pfx = "/memory" ∧
    ("a" ≠ "./a" ∧ path.Join [storeInit.pfx, "a"] = path.Join [storeInit.pfx, "./a"]) ∧
    ("a" ≠ "b/../a" ∧ path.Join [storeInit.pfx, "a"] = path.Join [storeInit.pfx, "b/../a"]) ∧
    (∃ p, storeInit.Put 7 "a" "v" = some p ∧
      ∃ g, p.session.Get "./a" = some g ∧ g.ret = ("v", none)) ∧
    (∃ p, storeInit.Put 7 "a" "v" = some p ∧
      ∃ g, p.session.Get "b/../a" = some g ∧ g.ret = ("v", none)) ∧
    (∃ p, storeInit.Put 7 "a" "v" = some p ∧ ∃ d, p.session.Delete "./a" = some d ∧
      ∃ g, d.session.Get "a" = some g ∧ g.ret = ("", none)) ∧
    (path.Join [storeInit.pfx, "../x"] = "/x" ∧
      storeInit.pfx.data.isPrefixOf (path.Join [storeInit.pfx, "../x"]).data = false) :=
  ⟨by decide, rfl, ⟨by decide, by decide⟩, ⟨by decide, by decide⟩,
    memorySession.Get_after_Put_alias storeInit 7 "a" "./a" "v" (by decide) (by decide),
    memorySession.Get_after_Put_alias storeInit 7 "a" "b/../a" "v" (by decide) (by decide),
    memorySession.Delete_after_Put_alias storeInit 7 "a" "./a" "v" (by decide) (by decide),
    by decide, by decide⟩

/-! ## The ttl -/

/-- C18. `Init` leaves `ttl` as it was for every settings map, and no other
operation assigns it, so `ttl` is `0` on every store reached from `New` by
`Init` calls (and by any other operations).  On such a store, once
initialised, `Put` at an `int64` instant `t` records the expiry `t` exactly;
and an entry is gone after any sweep that examines it at an instant strictly
later than its expiry. -/
theorem ttl_never_configured :
    (∀ (host : Host) (c : memorySession) (setting : Setting),
      (c.Init host setting).1.ttl = c.ttl) ∧
    (∀ c : memorySession, Reach c → c.ttl = 0) ∧
    (∀ (c : memorySession) (t : Int) (k v : String), Reach c → c.log ≠ none → isInt64 t →
      ∃ p, c.Put t k v = some p ∧
        p.session.items.lookup (path.Join [c.pfx, k]) = some { Value := v, Expires := t } ∧
        ∀ (visit : List (Σ _ : String, item)) (clock : String → Int),
          visit.Perm p.session.items.entries → t < clock (path.Join [c.pfx, k]) →
          (p.session.sweep visit clock).items.lookup (path.Join [c.pfx, k]) = none) := by
  refine ⟨fun _ _ _ => rfl, fun c h => h.ttl_zero, ?_⟩
  intro c t k v hreach hinit ht
  obtain ⟨l, hl⟩ := Option.ne_none_iff_exists'.mp hinit
  have hstamp : toInt64 (t + toInt64 (c.ttl * Minute)) = t := by
    rw [hreach.ttl_zero, Int.zero_mul, toInt64_add_toInt64, Int.add_zero, toInt64_of_isInt64 t ht]
  have hentry : (AList.insert (path.Join [c.pfx, k])
      (newItem v (toInt64 (t + toInt64 (c.ttl * Minute)))) c.items).lookup (path.Join [c.pfx, k]) =
        some { Value := v, Expires := t } := by
    rw [AList.lookup_insert, hstamp]
    rfl
  refine ⟨_, memorySession.Put_of_log c l hl t k v, hentry, ?_⟩
  intro visit clock hvisit hlater
  cases hlook : (memorySession.sweep _ visit clock).items.lookup (path.Join [c.pfx, k]) with
  | none => rfl
  | some j =>
    obtain ⟨hj, hlive⟩ := (Items.lookup_sweep _ visit clock hvisit _ j).mp hlook
    have hj2 : (some { Value := v, Expires := t } : Option item) = some j := hentry.symm.trans hj
    cases hj2
    have hx : (item.mk v t).Expired (clock (path.Join [c.pfx, k])) = true :=
      (expired_iff_aux _ _).mpr (Or.inr hlater)
    rw [hx] at hlive
    cases hlive

theorem ttl_never_configured_witness :
    (storeOld.Init hostOk settingLogFile).1.ttl = storeOld.ttl ∧
    (Reach storeLogFile ∧ storeLogFile.ttl = 0) ∧
    ((Reach (storeLogFile.Init hostFail settingWrongTypes).1 ∧
        (storeLogFile.Init hostFail settingWrongTypes).1.log ≠ none ∧
        isInt64 1700000000000000000) ∧
      ∃ p, (storeLogFile.Init hostFail settingWrongTypes).1.Put 1700000000000000000 "key"
          "test" = some p ∧
        p.session.items.lookup
            (path.Join [(storeLogFile.Init hostFail settingWrongTypes).1.pfx, "key"]) =
          some { Value := "test", Expires := 1700000000000000000 } ∧
        ∀ (visit : List (Σ _ : String, item)) (clock : String → Int),
          visit.Perm p.session.items.entries →
          1700000000000000000 <
            clock (path.Join [(storeLogFile.Init hostFail settingWrongTypes).1.pfx, "key"]) →
          (p.session.sweep visit clock).items.lookup
              (path.Join [(storeLogFile.Init hostFail settingWrongTypes).1.pfx, "key"]) =
            none) :=
  ⟨ttl_never_configured.1 hostOk storeOld settingLogFile,
    ⟨Reach.init hostOk settingLogFile Reach.new,
      ttl_never_configured.2.1 storeLogFile (Reach.init hostOk settingLogFile Reach.new)⟩,
    ⟨Reach.init hostFail settingWrongTypes (Reach.init hostOk settingLogFile Reach.new),
      by decide, by decide⟩,
    ttl_never_configured.2.2 (storeLogFile.Init hostFail settingWrongTypes).1
      1700000000000000000 "key" "test"
      (Reach.init hostFail settingWrongTypes (Reach.init hostOk settingLogFile Reach.new))
      (by decide) (by decide)⟩

/-! ## The joined key -/

/-- C11, the claim as written fails: under the prefix `/memory` of the tests,
`Put("key", v)` stores the entry under `/memory/key`, with a slash inserted,
and nothing under the concatenation `/memorykey`. -/
theorem full_key_not_concatenation :
    storeInit.pfx = "/memory" ∧
    path.Join [storeInit.pfx, "key"] = "/memory/key" ∧
    path.Join [storeInit.pfx, "key"] ≠ storeInit.pfx ++ "key" ∧
    ∃ p, storeInit.Put 7 "key" "test" = some p ∧
      p.session.items.lookup (storeInit.pfx ++ "key") = none ∧
      p.session.items.lookup "/memory/key" = some { Value := "test", Expires := 7 } :=
  ⟨rfl, by decide, by decide, _, rfl, by decide, by decide⟩

/-- C11, amended. On every initialised store the map key that `Put`, `Delete`
and `Get` use, and log, is `path.Join(prefix, key)`: prefix and key joined by
a slash and cleaned.  When the prefix is one plain path element, with or
without a leading slash, and the key is one plain path element, that is
exactly the prefix, a slash, and the key. -/
theorem full_key_is_join (c : memorySession) (now : Int) (k v : String)
    (hinit : c.log ≠ none) :
    (∃ p, c.Put now k v = some p ∧
      p.session.items = c.items.insert (path.Join [c.pfx, k])
        (newItem v (toInt64 (now + toInt64 (c.ttl * Minute)))) ∧
      p.debug = "[PUT] " ++ path.Join [c.pfx, k] ++ ":" ++ v) ∧
    (∃ d, c.Delete k = some d ∧
      d.session.items = c.items.erase (path.Join [c.pfx, k]) ∧
      d.debug = "[DEL] " ++ path.Join [c.pfx, k]) ∧
    (∃ g, c.Get k = some g ∧
      g.ret.1 = ((c.items.lookup (path.Join [c.pfx, k])).map item.Value).getD "" ∧
      g.debug = "[GET] " ++ path.Join [c.pfx, k] ++ ":" ++ g.ret.1) ∧
    (path.plainRoot c.pfx → path.plain k.data →
      path.Join [c.pfx, k] = c.pfx ++ "/" ++ k) := by
  obtain ⟨l, hl⟩ := Option.ne_none_iff_exists'.mp hinit
  refine ⟨⟨_, memorySession.Put_of_log c l hl now k v, rfl, rfl⟩,
    ⟨_, memorySession.Delete_of_log c l hl k, rfl, rfl⟩, ?_, path.Join_plain c.pfx k⟩
  cases hlook : c.items.lookup (path.Join [c.pfx, k]) with
  | none => simp [memorySession.Get, hl, hlook]
  | some i => simp [memorySession.Get, hl, hlook]

theorem full_key_is_join_witness :
    (storeTwo.log ≠ none ∧ path.plainRoot storeTwo.pfx ∧ path.plain "key".data) ∧
    (∃ p, storeTwo.Put 7 "key" "new" = some p ∧
      p.session.items = storeTwo.items.insert (path.Join [storeTwo.pfx, "key"])
        (newItem "new" (toInt64 (7 + toInt64 (storeTwo.ttl * Minute)))) ∧
      p.debug = "[PUT] " ++ path.Join [storeTwo.pfx, "key"] ++ ":" ++ "new") ∧
    (∃ d, storeTwo.Delete "key" = some d ∧
      d.session.items = storeTwo.items.erase (path.Join [storeTwo.pfx, "key"]) ∧
      d.debug = "[DEL] " ++ path.Join [storeTwo.pfx, "key"]) ∧
    (∃ g, storeTwo.Get "key" = some g ∧
      g.ret.1 = ((storeTwo.items.lookup (path.Join [storeTwo.pfx, "key"])).map item.Value).getD
        "" ∧
      g.debug = "[GET] " ++ path.Join [storeTwo.pfx, "key"] ++ ":" ++ g.ret.1) ∧
    path.Join [storeTwo.pfx, "key"] = storeTwo.pfx ++ "/" ++ "key" :=
  ⟨⟨by decide, by decide, by decide⟩,
    (full_key_is_join storeTwo 7 "key" "new" (by decide)).1,
    (full_key_is_join storeTwo 7 "key" "new" (by decide)).2.1,
    (full_key_is_join storeTwo 7 "key" "new" (by decide)).2.2.1,
    (full_key_is_join storeTwo 7 "key" "new" (by decide)).2.2.2 (by decide) (by decide)⟩

/-- C12, the claim as written fails: the distinct prefixes `memory` and
`other` give the key `../x` one and the same joined key `x`, so over a shared
map the entry put under the prefix `memory` is read by a `Get` under the
prefix `other`; and without any `..`, the prefixes `a` and `a/b` join `b/c`
and `c` to the same `a/b/c`. -/
theorem prefixes_do_not_namespace :
    (storeDefault.pfx = "memory" ∧ "memory" ≠ "other" ∧
      path.Join ["memory", "../x"] = path.Join ["other", "../x"]) ∧
    ("a" ≠ "a/b" ∧ path.Join ["a", "b/c"] = path.Join ["a/b", "c"]) ∧
    ∃ p, storeDefault.Put 7 "../x" "v" = some p ∧
      ∃ g, ({ p.session with pfx := "other" }).Get "../x" = some g ∧ g.ret = ("v", none) := by
  refine ⟨⟨rfl, by decide, by decide⟩, ⟨by decide, by decide⟩, ?_⟩
  obtain ⟨l, hl⟩ := Option.ne_none_iff_exists'.mp (show storeDefault.log ≠ none by decide)
  refine ⟨_, memorySession.Put_of_log storeDefault l hl 7 "../x" "v", _,
    memorySession.Get_of_hit _ l ?_ "../x" (newItem "v" 7) ?_, rfl⟩
  · exact hl
  · decide

/-- C12, amended. For two distinct prefixes that are each one plain path
element, with or without a leading slash, and caller keys that are each one
plain path element (not empty, no slash, neither `.` nor `..`), the joined
keys differ; so over a shared map a `Put` under one prefix leaves what a `Get`
under the other prefix finds as it was. -/
theorem plain_prefixes_namespace (p q k1 k2 : String) (hp : path.plainRoot p)
    (hq : path.plainRoot q) (hk1 : path.plain k1.data) (hk2 : path.plain k2.data)
    (hpq : p ≠ q) :
    path.Join [p, k1] ≠ path.Join [q, k2] ∧
    ∀ (c : memorySession) (now : Int) (v : String), c.log ≠ none → c.pfx = p →
      ∃ r, c.Put now k1 v = some r ∧
        r.session.items.lookup (path.Join [q, k2]) = c.items.lookup (path.Join [q, k2]) := by
  have hdiff : path.Join [p, k1] ≠ path.Join [q, k2] := by
    rw [path.Join_plain p k1 hp hk1, path.Join_plain q k2 hq hk2]
    intro h
    have hdata := congrArg String.data h
    simp only [String.data_append] at hdata
    have hsplit : p.data ++ '/' :: k1.data = q.data ++ '/' :: k2.data := by
      simpa using hdata
    exact hpq (String.ext (path.slash_split _ _ _ _ hk1.2.1 hk2.2.1 hsplit))
  refine ⟨hdiff, ?_⟩
  intro c now v hinit hpfx
  obtain ⟨l, hl⟩ := Option.ne_none_iff_exists'.mp hinit
  refine ⟨_, memorySession.Put_of_log c l hl now k1 v, ?_⟩
  subst hpfx
  exact AList.lookup_insert_ne (Ne.symm hdiff)

theorem plain_prefixes_namespace_witness :
    (path.plainRoot "/memory" ∧ path.plainRoot "q" ∧ path.plain "a".data ∧
      path.plain "key".data ∧ "/memory" ≠ "q") ∧
    path.Join ["/memory", "a"] ≠ path.Join ["q", "key"] ∧
    ((storeTwo.log ≠ none ∧ storeTwo.pfx = "/memory") ∧
      ∃ r, storeTwo.Put 7 "a" "x" = some r ∧
        r.session.items.lookup (path.Join ["q", "key"]) =
          storeTwo.items.lookup (path.Join ["q", "key"])) :=
  ⟨⟨by decide, by decide, by decide, by decide, by decide⟩,
    (plain_prefixes_namespace "/memory" "q" "a" "key" (by decide) (by decide) (by decide)
      (by decide) (by decide)).1,
    ⟨by decide, rfl⟩,
    (plain_prefixes_namespace "/memory" "q" "a" "key" (by decide) (by decide) (by decide)
      (by decide) (by decide)).2 storeTwo 7 "x" (by decide) rfl⟩
